import Mathlib

/-!
Verification of the matchmaking queue (`matchmaker.py`).

The source is a single Python module with a `Player` dataclass, a `Match`
dataclass and a `Matchmaker` class holding a queue (a Python list), a
`base_range` and a `range_expansion`.  We embed the data model and the two
operations `add_to_queue` and `find_match` shallowly:

* Python floats produced by `time.time()` are modelled as integers
  (the algorithm only adds, subtracts, multiplies and compares them);
  the clock reading is injected as a `now` parameter since the source
  reads `time.time()` internally.
* `find_match` may raise `IndexError` (`candidates[-1]` on an empty
  slice, reachable for `team_size <= 0`), so the embedding returns an
  `Except`; the returned pair carries the Python return value and the
  queue after the call (the source mutates `self.queue`).
* `team_size` is an arbitrary Python int, so it is an `Int` here, and
  list slicing follows Python semantics (negative stops count from the
  end, out-of-range bounds clamp).
* Python's `sorted(queue, key=lambda p: p.mmr)` is a stable sort by
  `mmr`; it is embedded as insertion sort by `mmr`, which is the same
  stable sort.
* `self.queue.remove(p)` removes the first element equal to `p`
  (dataclass equality is field equality); it is embedded as
  `List.erase`.  Its error case (element absent) is unreachable at this
  call site because every candidate is drawn from a permutation of the
  queue.
-/

structure Player where
  id : String
  mmr : Int
  queue_time : Int
deriving DecidableEq

structure MatchResult where
  team1 : List Player
  team2 : List Player
  average_mmr : Int
deriving DecidableEq

structure Matchmaker where
  queue : List Player
  base_range : Int
  range_expansion : Int
deriving DecidableEq

/-- The error a `find_match` call can raise. -/
inductive PyErr where
  | indexError
deriving DecidableEq

deriving instance DecidableEq for Except

/-- The `key=lambda p: p.mmr` sort order. -/
def byMmr (a b : Player) : Prop := a.mmr ≤ b.mmr

instance instDecByMmr : DecidableRel byMmr :=
  fun a b => inferInstanceAs (Decidable (a.mmr ≤ b.mmr))

instance instTotalByMmr : IsTotal Player byMmr :=
  ⟨fun a b => le_total a.mmr b.mmr⟩

instance instTransByMmr : IsTrans Player byMmr :=
  ⟨fun _ _ _ h1 h2 => le_trans h1 h2⟩

/-- `sorted(self.queue, key=lambda p: p.mmr)`: the stable sort by mmr. -/
def sortByMmr (l : List Player) : List Player := List.insertionSort byMmr l

/-- Python list slice `l[start:stop]` for a non-negative start:
a negative stop counts from the end, and both bounds clamp. -/
def pySlice (l : List α) (start : Nat) (stop : Int) : List α :=
  let stop_ix : Nat := if stop < 0 then ((l.length : Int) + stop).toNat else stop.toNat
  (l.take stop_ix).drop start

/-- `min(p.queue_time for p in c)` (meaningful only for nonempty `c`). -/
def minQt : List Player → Int
  | [] => 0
  | p :: r => r.foldl (fun acc q => min acc q.queue_time) p.queue_time

/-- `sum(p.mmr for p in c)`. -/
def sumMmr (l : List Player) : Int := (l.map Player.mmr).sum

/-- Python extended slice `l[::2]`: the elements at even indices. -/
def sliceStep2 : List α → List α
  | [] => []
  | [a] => [a]
  | a :: _ :: rest => a :: sliceStep2 rest

/-- `for p in candidates: self.queue.remove(p)`. -/
def removeAll (queue cands : List Player) : List Player :=
  cands.foldl (fun q p => q.erase p) queue

/-- The body of the `for i in range(...)` loop of `find_match`, with the
iteration count as fuel and `i` as the current index.  Mirrors the source:
slice the candidates, compute `mmr_range` from the last and first slice
elements (IndexError when the slice is empty), compute the wait-dependent
allowed range, and on acceptance split alternating ranks into two teams,
remove the candidates from the queue and return the match. -/
def scanLoop (base exp now : Int) (queue sorted : List Player) (ts : Int) :
    Nat → Nat → Except PyErr (Option MatchResult × List Player)
  | 0, _ => .ok (none, queue)
  | fuel + 1, i =>
    let candidates := pySlice sorted i ((i : Int) + ts * 2)
    match candidates with
    | [] => .error .indexError
    | p :: rest =>
      let mmr_range := ((p :: rest).getLast (List.cons_ne_nil p rest)).mmr - p.mmr
      let wait_time := now - minQt (p :: rest)
      let allowed_range := base + wait_time * exp
      if mmr_range ≤ allowed_range then
        .ok (some { team1 := sliceStep2 (p :: rest),
                    team2 := sliceStep2 (p :: rest).tail,
                    average_mmr := Int.fdiv (sumMmr (p :: rest)) ((p :: rest).length : Int) },
             removeAll queue (p :: rest))
      else
        scanLoop base exp now queue sorted ts fuel (i + 1)

/-- `Matchmaker.find_match(team_size)`, with the clock injected as `now`.
Returns the Python return value together with the queue after the call. -/
def find_match (mm : Matchmaker) (ts : Int) (now : Int) :
    Except PyErr (Option MatchResult × List Player) :=
  if (mm.queue.length : Int) < ts * 2 then .ok (none, mm.queue)
  else
    scanLoop mm.base_range mm.range_expansion now mm.queue (sortByMmr mm.queue) ts
      (((sortByMmr mm.queue).length : Int) - ts * 2 + 1).toNat 0

/-- `Matchmaker.add_to_queue(player)`: sets the player's `queue_time` to the
current time and appends it to the queue, unconditionally. -/
def add_to_queue (mm : Matchmaker) (p : Player) (now : Int) : Matchmaker :=
  { mm with queue := mm.queue ++ [{ p with queue_time := now }] }

/-! Spec-side definitions, written from the spec's description of the
window scan: windows of `2*team_size` consecutive players of the sorted
queue, spread computed as max minus min rating over the window, wait from
the minimum enqueue timestamp, first accepted window wins. -/

/-- The window of `2*ts` consecutive sorted players starting at index `i`. -/
def window (sorted : List Player) (ts i : Nat) : List Player :=
  (sorted.drop i).take (2 * ts)

/-- `max_rating_in_window` (meaningful only for nonempty windows). -/
def maxMmr : List Player → Int
  | [] => 0
  | p :: r => r.foldl (fun acc q => max acc q.mmr) p.mmr

/-- `min_rating_in_window` (meaningful only for nonempty windows). -/
def minMmr : List Player → Int
  | [] => 0
  | p :: r => r.foldl (fun acc q => min acc q.mmr) p.mmr

/-- The spec's acceptance test for a window `w`:
`spread <= base_range + wait * range_expansion`. -/
def acceptedB (base exp now : Int) (w : List Player) : Bool :=
  maxMmr w - minMmr w ≤ base + (now - minQt w) * exp

/-- The index of the first accepted window, scanning from index 0 upward. -/
def firstAcceptedIdx (base exp now : Int) (sorted : List Player) (ts : Nat) : Option Nat :=
  (List.range (sorted.length - 2 * ts + 1)).find?
    (fun i => acceptedB base exp now (window sorted ts i))

/-- The match built from an accepted window: even ranks to team1, odd ranks
to team2, average rating by floor division. -/
def buildMatch (c : List Player) : MatchResult :=
  { team1 := sliceStep2 c
    team2 := sliceStep2 c.tail
    average_mmr := Int.fdiv (sumMmr c) (c.length : Int) }

/-- The spec's description of a `find_match` call on a queue holding at
least `2*ts` players: scan the windows in order, return the match built
from the first accepted one and remove its players from the queue, or
report no match and leave the queue unchanged. -/
def find_match_spec (mm : Matchmaker) (ts : Nat) (now : Int) :
    Option MatchResult × List Player :=
  match firstAcceptedIdx mm.base_range mm.range_expansion now (sortByMmr mm.queue) ts with
  | none => (none, mm.queue)
  | some i => (some (buildMatch (window (sortByMmr mm.queue) ts i)),
               removeAll mm.queue (window (sortByMmr mm.queue) ts i))

/-! Helper lemmas about the embedded operations. -/

theorem sortByMmr_sorted (l : List Player) : List.Sorted byMmr (sortByMmr l) :=
  List.sorted_insertionSort byMmr l

theorem sortByMmr_perm (l : List Player) : (sortByMmr l).Perm l :=
  List.perm_insertionSort byMmr l

theorem sortByMmr_length (l : List Player) : (sortByMmr l).length = l.length :=
  List.length_insertionSort byMmr l

theorem sliceStep2_cons_tail (x : α) (l : List α) :
    sliceStep2 (x :: l) = x :: sliceStep2 l.tail := by
  cases l <;> rfl

theorem sliceStep2_length (l : List α) : (sliceStep2 l).length = (l.length + 1) / 2 := by
  induction l using sliceStep2.induct with
  | case1 => simp [sliceStep2]
  | case2 a => simp [sliceStep2]
  | case3 a b rest ih => simp only [sliceStep2, List.length_cons, ih]; omega

theorem sliceStep2_sublist (l : List α) : (sliceStep2 l).Sublist l := by
  induction l using sliceStep2.induct with
  | case1 => simp [sliceStep2]
  | case2 a => simp [sliceStep2]
  | case3 a b rest ih =>
    simp only [sliceStep2]
    exact (ih.cons b).cons₂ a

theorem sliceStep2_append_tail_perm (l : List α) :
    (sliceStep2 l ++ sliceStep2 l.tail).Perm l := by
  induction l using sliceStep2.induct with
  | case1 => simp [sliceStep2]
  | case2 a => simp [sliceStep2]
  | case3 a b rest ih =>
    simp only [sliceStep2, List.tail_cons, sliceStep2_cons_tail, List.cons_append]
    refine List.Perm.cons a ?_
    exact List.perm_middle.trans (List.Perm.cons b ih)

theorem sliceStep2_getElem? (l : List α) (k : Nat) :
    (sliceStep2 l)[k]? = l[2 * k]? := by
  induction l using sliceStep2.induct generalizing k with
  | case1 => simp [sliceStep2]
  | case2 a => cases k with
    | zero => simp [sliceStep2]
    | succ k => simp [sliceStep2]; omega
  | case3 a b rest ih => cases k with
    | zero => simp [sliceStep2]
    | succ k =>
      have h2 : 2 * (k + 1) = 2 * k + 1 + 1 := by omega
      simp only [sliceStep2, h2, List.getElem?_cons_succ, ih]

theorem foldl_min_of_le (f : Player → Int) (r : List Player) (a : Int)
    (h : ∀ q ∈ r, a ≤ f q) : r.foldl (fun acc q => min acc (f q)) a = a := by
  induction r generalizing a with
  | nil => rfl
  | cons q r' ih =>
    simp only [List.foldl_cons]
    rw [min_eq_left (h q (by simp))]
    exact ih a fun p hp => h p (by simp [hp])

theorem minMmr_sorted (p : Player) (r : List Player)
    (h : List.Sorted byMmr (p :: r)) : minMmr (p :: r) = p.mmr := by
  exact foldl_min_of_le Player.mmr r p.mmr fun q hq => (List.sorted_cons.mp h).1 q hq

theorem minQt_eq_foldl_min (p : Player) (r : List Player) :
    minQt (p :: r) = r.foldl (fun acc q => min acc q.queue_time) p.queue_time := rfl

theorem maxMmr_sorted (p : Player) (r : List Player)
    (h : List.Sorted byMmr (p :: r)) :
    maxMmr (p :: r) = ((p :: r).getLast (List.cons_ne_nil p r)).mmr := by
  induction r generalizing p with
  | nil => rfl
  | cons q r' ih =>
    have hpq : p.mmr ≤ q.mmr := (List.sorted_cons.mp h).1 q (by simp)
    have htail : List.Sorted byMmr (q :: r') := (List.sorted_cons.mp h).2
    have hstep : maxMmr (p :: q :: r') = maxMmr (q :: r') := by
      simp [maxMmr, max_eq_right hpq]
    rw [hstep, ih q htail]
    rw [List.getLast_cons (List.cons_ne_nil q r')]

theorem pySlice_eq_window (l : List Player) (ts i : Nat) :
    pySlice l i ((i : Int) + (ts : Int) * 2) = window l ts i := by
  unfold pySlice window
  have h1 : ¬ ((i : Int) + (ts : Int) * 2 < 0) := by omega
  simp only [if_neg h1]
  have h2 : ((i : Int) + (ts : Int) * 2).toNat = i + ts * 2 := by omega
  rw [h2, List.drop_take]
  congr 1
  omega

theorem window_length (l : List Player) (ts i : Nat) (h : i + 2 * ts ≤ l.length) :
    (window l ts i).length = 2 * ts := by
  simp only [window, List.length_take, List.length_drop]
  omega

theorem window_sorted (l : List Player) (h : List.Sorted byMmr l) (ts i : Nat) :
    List.Sorted byMmr (window l ts i) :=
  List.Pairwise.sublist ((List.take_sublist _ _).trans (List.drop_sublist _ _)) h

theorem window_sublist (l : List Player) (ts i : Nat) :
    (window l ts i).Sublist l :=
  (List.take_sublist _ _).trans (List.drop_sublist _ _)

theorem removeAll_eq_diff (q c : List Player) : removeAll q c = q.diff c :=
  (List.diff_eq_foldl q c).symm

theorem scanLoop_eq_find (base exp now : Int) (queue sorted : List Player) (ts : Nat)
    (hsort : List.Sorted byMmr sorted) :
    ∀ (fuel i : Nat), i + fuel + 2 * ts ≤ sorted.length + 1 → 1 ≤ ts →
    scanLoop base exp now queue sorted (ts : Int) fuel i =
      match (List.range' i fuel).find?
          (fun j => acceptedB base exp now (window sorted ts j)) with
      | none => .ok (none, queue)
      | some j => .ok (some (buildMatch (window sorted ts j)),
                       removeAll queue (window sorted ts j)) := by
  intro fuel
  induction fuel with
  | zero => intro i _ _; simp [scanLoop]
  | succ fuel ih =>
    intro i hb hts
    have hiw : i + 2 * ts ≤ sorted.length := by omega
    have hwlen : (window sorted ts i).length = 2 * ts := window_length sorted ts i hiw
    have hwne : window sorted ts i ≠ [] := by
      intro h0
      rw [h0] at hwlen
      simp at hwlen
      omega
    obtain ⟨p, rest, hc⟩ := List.exists_cons_of_ne_nil hwne
    have hws : List.Sorted byMmr (p :: rest) := hc ▸ window_sorted sorted hsort ts i
    have hcand : pySlice sorted i ((i : Int) + (ts : Int) * 2) = p :: rest := by
      rw [pySlice_eq_window]; exact hc
    rw [List.range'_succ]
    by_cases hacc : ((p :: rest).getLast (List.cons_ne_nil p rest)).mmr - p.mmr
        ≤ base + (now - minQt (p :: rest)) * exp
    · have haccB : acceptedB base exp now (window sorted ts i) = true := by
        rw [hc]
        unfold acceptedB
        rw [maxMmr_sorted p rest hws, minMmr_sorted p rest hws]
        exact decide_eq_true hacc
      have haccB' : (fun j => acceptedB base exp now (window sorted ts j)) i = true := haccB
      have hfind : List.find? (fun j => acceptedB base exp now (window sorted ts j))
          (i :: List.range' (i + 1) fuel) = some i :=
        List.find?_cons_of_pos _ haccB'
      rw [hfind]
      simp only [scanLoop, hcand]
      rw [if_pos hacc, hc]
      rfl
    · have haccB : acceptedB base exp now (window sorted ts i) = false := by
        rw [hc]
        unfold acceptedB
        rw [maxMmr_sorted p rest hws, minMmr_sorted p rest hws]
        exact decide_eq_false hacc
      have haccB' : ¬ ((fun j => acceptedB base exp now (window sorted ts j)) i = true) := by
        intro hcontra
        have hcontra' : acceptedB base exp now (window sorted ts i) = true := hcontra
        rw [haccB] at hcontra'
        exact Bool.false_ne_true hcontra'
      have hfind : List.find? (fun j => acceptedB base exp now (window sorted ts j))
          (i :: List.range' (i + 1) fuel)
          = List.find? (fun j => acceptedB base exp now (window sorted ts j))
            (List.range' (i + 1) fuel) :=
        List.find?_cons_of_neg _ haccB'
      rw [hfind]
      simp only [scanLoop, hcand]
      rw [if_neg hacc]
      exact ih (i + 1) (by omega) hts

theorem find_match_eq_spec_aux (mm : Matchmaker) (ts : Nat) (now : Int)
    (hts : 1 ≤ ts) (hlen : 2 * ts ≤ mm.queue.length) :
    find_match mm (ts : Int) now = .ok (find_match_spec mm ts now) := by
  unfold find_match find_match_spec firstAcceptedIdx
  have hlen' : ¬ ((mm.queue.length : Int) < (ts : Int) * 2) := by omega
  rw [if_neg hlen']
  have hslen : (sortByMmr mm.queue).length = mm.queue.length := sortByMmr_length _
  have hfuel : (((sortByMmr mm.queue).length : Int) - (ts : Int) * 2 + 1).toNat
      = (sortByMmr mm.queue).length - 2 * ts + 1 := by
    rw [hslen]; omega
  rw [hfuel, List.range_eq_range']
  rw [scanLoop_eq_find mm.base_range mm.range_expansion now mm.queue (sortByMmr mm.queue)
    ts (sortByMmr_sorted mm.queue) ((sortByMmr mm.queue).length - 2 * ts + 1) 0
    (by omega) hts]
  cases hfind : (List.range' 0 ((sortByMmr mm.queue).length - 2 * ts + 1)).find?
      (fun j => acceptedB mm.base_range mm.range_expansion now
        (window (sortByMmr mm.queue) ts j)) with
  | none => simp
  | some j => simp

theorem scanLoop_none (base exp now : Int) (queue sorted : List Player) (ts : Int) :
    ∀ (fuel i : Nat) (q' : List Player),
    scanLoop base exp now queue sorted ts fuel i = .ok (none, q') → q' = queue := by
  intro fuel
  induction fuel with
  | zero =>
    intro i q' h
    simp only [scanLoop, Except.ok.injEq, Prod.mk.injEq] at h
    exact h.2.symm
  | succ fuel ih =>
    intro i q' h
    simp only [scanLoop] at h
    split at h
    · exact absurd h (by simp)
    · split at h
      · simp at h
      · exact ih (i + 1) q' h

theorem find_match_none_frame (mm : Matchmaker) (ts now : Int) (q' : List Player)
    (h : find_match mm ts now = .ok (none, q')) : q' = mm.queue := by
  unfold find_match at h
  by_cases hg : (mm.queue.length : Int) < ts * 2
  · rw [if_pos hg] at h
    simp only [Except.ok.injEq, Prod.mk.injEq] at h
    exact h.2.symm
  · rw [if_neg hg] at h
    exact scanLoop_none mm.base_range mm.range_expansion now mm.queue
      (sortByMmr mm.queue) ts _ 0 q' h

theorem find_match_some_char (mm : Matchmaker) (ts : Nat) (now : Int)
    (hts : 1 ≤ ts) (m : MatchResult) (q' : List Player)
    (hm : find_match mm (ts : Int) now = .ok (some m, q')) :
    ∃ i, i + 2 * ts ≤ mm.queue.length ∧
      m = buildMatch (window (sortByMmr mm.queue) ts i) ∧
      q' = removeAll mm.queue (window (sortByMmr mm.queue) ts i) := by
  by_cases hlen : 2 * ts ≤ mm.queue.length
  · rw [find_match_eq_spec_aux mm ts now hts hlen] at hm
    unfold find_match_spec at hm
    cases hfi : firstAcceptedIdx mm.base_range mm.range_expansion now (sortByMmr mm.queue) ts with
    | none => rw [hfi] at hm; simp at hm
    | some i =>
      rw [hfi] at hm
      simp only [Except.ok.injEq, Prod.mk.injEq, Option.some.injEq] at hm
      refine ⟨i, ?_, hm.1.symm, hm.2.symm⟩
      have hmem : i ∈ List.range ((sortByMmr mm.queue).length - 2 * ts + 1) :=
        List.mem_of_find?_eq_some hfi
      rw [List.mem_range, sortByMmr_length] at hmem
      omega
  · unfold find_match at hm
    rw [if_pos (by omega)] at hm
    simp at hm

theorem sliceStep2_sum_le (l : List Player) (hs : List.Sorted byMmr l)
    (he : l.length % 2 = 0) : sumMmr (sliceStep2 l) ≤ sumMmr (sliceStep2 l.tail) := by
  induction l using sliceStep2.induct with
  | case1 => exact le_refl 0
  | case2 a => simp at he
  | case3 a b rest ih =>
    have hab : a.mmr ≤ b.mmr := (List.sorted_cons.mp hs).1 b (by simp)
    have hrest : List.Sorted byMmr rest :=
      (List.sorted_cons.mp ((List.sorted_cons.mp hs).2)).2
    have ihr := ih hrest (by simp only [List.length_cons] at he; omega)
    simp only [sliceStep2, List.tail_cons, sliceStep2_cons_tail, sumMmr,
      List.map_cons, List.sum_cons] at ihr ⊢
    exact add_le_add hab ihr

theorem sumMmr_perm {l l' : List Player} (h : l.Perm l') : sumMmr l = sumMmr l' :=
  List.Perm.sum_eq (List.Perm.map Player.mmr h)

/-! Claim theorems. -/

/-- C1: for every queue holding at least `2*team_size` players (positive
team size), `find_match` scans every contiguous window of exactly
`2*team_size` consecutive players of the rating-sorted queue starting from
index 0, accepts a window iff
`max_mmr - min_mmr <= base_range + (now - min_queue_time) * range_expansion`,
and returns the match built from the first accepted window (lowest starting
index wins), removing exactly its players from the queue. -/
theorem find_match_first_accepted_window (mm : Matchmaker) (ts : Nat) (now : Int)
    (hts : 1 ≤ ts) (hlen : 2 * ts ≤ mm.queue.length) :
    find_match mm (ts : Int) now = .ok (find_match_spec mm ts now) :=
  find_match_eq_spec_aux mm ts now hts hlen

/-- Witness for C1 at a concrete two-player queue. -/
theorem find_match_first_accepted_window_witness :
    find_match ⟨[⟨"a", 0, 0⟩, ⟨"b", 5, 0⟩], 10, 0⟩ ((1 : Nat) : Int) 0
      = .ok (find_match_spec ⟨[⟨"a", 0, 0⟩, ⟨"b", 5, 0⟩], 10, 0⟩ 1 0) :=
  find_match_first_accepted_window ⟨[⟨"a", 0, 0⟩, ⟨"b", 5, 0⟩], 10, 0⟩ 1 0
    (by decide) (by decide)

/-- C5 (code bug): the source never validates `team_size`; a call with
`team_size = 0` reaches the window loop and raises `IndexError` at
`candidates[-1]` on the empty slice — both on an empty queue and on a
populated one — instead of failing with `InvalidArgument` before any
queue access. -/
theorem team_size_zero_index_error :
    find_match ⟨[], 100, 10⟩ 0 0 = .error .indexError ∧
      find_match ⟨[⟨"a", 5, 0⟩, ⟨"b", 6, 0⟩], 100, 10⟩ 0 0 = .error .indexError := by
  decide

/-- C7: with fewer than `2*team_size` queued players, `find_match` returns
no match (not an error) and leaves the queue unchanged. -/
theorem no_match_when_queue_small (mm : Matchmaker) (ts now : Int)
    (h : (mm.queue.length : Int) < 2 * ts) :
    find_match mm ts now = .ok (none, mm.queue) := by
  unfold find_match
  rw [if_pos (by omega)]

/-- Witness for C7: one queued player, team size 1. -/
theorem no_match_when_queue_small_witness :
    find_match ⟨[⟨"a", 5, 0⟩], 100, 10⟩ 1 0 = .ok (none, [⟨"a", 5, 0⟩]) :=
  no_match_when_queue_small ⟨[⟨"a", 5, 0⟩], 100, 10⟩ 1 0 (by decide)

/-- C8: a `find_match` call that accepts no window returns no match and
leaves the queue completely unchanged, so a second call with no
intervening mutation behaves identically. -/
theorem failed_search_frame (mm : Matchmaker) (ts now : Int) (q' : List Player)
    (h : find_match mm ts now = .ok (none, q')) :
    q' = mm.queue ∧
      find_match { queue := q', base_range := mm.base_range,
                   range_expansion := mm.range_expansion } ts now = .ok (none, q') := by
  have hq := find_match_none_frame mm ts now q' h
  subst hq
  refine ⟨rfl, ?_⟩
  have hmm : { queue := mm.queue, base_range := mm.base_range,
               range_expansion := mm.range_expansion : Matchmaker } = mm := by
    cases mm
    rfl
  rw [hmm]
  exact h

/-- Witness for C8: a two-player queue whose spread exceeds the allowed
range at `now = 0`. -/
theorem failed_search_frame_witness :
    ([⟨"a", 0, 0⟩, ⟨"b", 500, 0⟩] : List Player) = [⟨"a", 0, 0⟩, ⟨"b", 500, 0⟩] ∧
      find_match { queue := [⟨"a", 0, 0⟩, ⟨"b", 500, 0⟩], base_range := 100,
                   range_expansion := 10 } 1 0
        = .ok (none, [⟨"a", 0, 0⟩, ⟨"b", 500, 0⟩]) :=
  failed_search_frame ⟨[⟨"a", 0, 0⟩, ⟨"b", 500, 0⟩], 100, 10⟩ 1 0
    [⟨"a", 0, 0⟩, ⟨"b", 500, 0⟩] (by decide)

/-- C2 counterexample: the source allows the same player to be enqueued
twice, and `find_match` then puts the same identity on both teams — the
union of the teams is not duplicate-free, so the claimed invariant fails
for such a starting queue. -/
theorem team_partition_duplicate_cex :
    find_match ⟨[⟨"a", 0, 0⟩, ⟨"a", 0, 0⟩], 0, 0⟩ 1 0
      = .ok (some ⟨[⟨"a", 0, 0⟩], [⟨"a", 0, 0⟩], 0⟩, []) ∧
      ¬ (([⟨"a", 0, 0⟩] ++ [⟨"a", 0, 0⟩] : List Player).Nodup) := by
  decide

/-- C2 amended: when the queued identities are pairwise distinct, every
successful match has teams of exactly `team_size` players each, their
union is a permutation of the matched window with no duplicates, and no
identity of the match remains in the residual queue. -/
theorem team_partition_nodup (mm : Matchmaker) (ts : Nat) (now : Int)
    (hts : 1 ≤ ts) (hids : (mm.queue.map Player.id).Nodup)
    (m : MatchResult) (q' : List Player)
    (hm : find_match mm (ts : Int) now = .ok (some m, q')) :
    m.team1.length = ts ∧ m.team2.length = ts ∧
      (∃ i, (m.team1 ++ m.team2).Perm (window (sortByMmr mm.queue) ts i)) ∧
      (m.team1 ++ m.team2).Nodup ∧
      (∀ x ∈ q', ∀ y ∈ m.team1 ++ m.team2, x.id ≠ y.id) := by
  obtain ⟨i, hbound, hmeq, hq'⟩ := find_match_some_char mm ts now hts m q' hm
  have hslen : (sortByMmr mm.queue).length = mm.queue.length := sortByMmr_length _
  have hclen : (window (sortByMmr mm.queue) ts i).length = 2 * ts :=
    window_length _ ts i (by omega)
  have hqnodup : mm.queue.Nodup := List.Nodup.of_map Player.id hids
  have hsortnodup : (sortByMmr mm.queue).Nodup :=
    (sortByMmr_perm mm.queue).nodup_iff.mpr hqnodup
  have hcsub : (window (sortByMmr mm.queue) ts i).Sublist (sortByMmr mm.queue) :=
    window_sublist _ ts i
  have hcnodup : (window (sortByMmr mm.queue) ts i).Nodup := hcsub.nodup hsortnodup
  have hperm : (sliceStep2 (window (sortByMmr mm.queue) ts i)
      ++ sliceStep2 (window (sortByMmr mm.queue) ts i).tail).Perm
      (window (sortByMmr mm.queue) ts i) :=
    sliceStep2_append_tail_perm _
  subst hmeq
  subst hq'
  refine ⟨?_, ?_, ⟨i, hperm⟩, hperm.nodup_iff.mpr hcnodup, ?_⟩
  · show (sliceStep2 (window (sortByMmr mm.queue) ts i)).length = ts
    rw [sliceStep2_length, hclen]
    omega
  · show (sliceStep2 (window (sortByMmr mm.queue) ts i).tail).length = ts
    rw [sliceStep2_length, List.length_tail, hclen]
    omega
  · intro x hx y hy heq
    rw [show removeAll mm.queue (window (sortByMmr mm.queue) ts i)
        = mm.queue.diff (window (sortByMmr mm.queue) ts i) from removeAll_eq_diff _ _] at hx
    rw [List.Nodup.mem_diff_iff hqnodup] at hx
    have hyc : y ∈ window (sortByMmr mm.queue) ts i := hperm.mem_iff.mp hy
    have hyq : y ∈ mm.queue :=
      (sortByMmr_perm mm.queue).mem_iff.mp (hcsub.subset hyc)
    have hxy : x = y := List.inj_on_of_nodup_map hids hx.1 hyq heq
    exact hx.2 (hxy ▸ hyc)

/-- Witness for the amended C2 at a concrete two-player queue. -/
theorem team_partition_nodup_witness :
    ([⟨"a", 0, 0⟩] : List Player).length = 1 ∧ ([⟨"b", 5, 0⟩] : List Player).length = 1 ∧
      (∃ i, (([⟨"a", 0, 0⟩] ++ [⟨"b", 5, 0⟩] : List Player)).Perm
        (window (sortByMmr [⟨"a", 0, 0⟩, ⟨"b", 5, 0⟩]) 1 i)) ∧
      (([⟨"a", 0, 0⟩] ++ [⟨"b", 5, 0⟩] : List Player)).Nodup ∧
      (∀ x ∈ ([] : List Player), ∀ y ∈ ([⟨"a", 0, 0⟩] ++ [⟨"b", 5, 0⟩] : List Player),
        x.id ≠ y.id) :=
  team_partition_nodup ⟨[⟨"a", 0, 0⟩, ⟨"b", 5, 0⟩], 10, 0⟩ 1 0 (by decide) (by decide)
    ⟨[⟨"a", 0, 0⟩], [⟨"b", 5, 0⟩], 2⟩ [] (by decide)

/-- C3 counterexample: the source computes the average with Python's `//`,
which rounds toward negative infinity; on a window with ratings -2 and -1
the returned average is -2, while rounding the quotient toward zero would
give -1, so the "rounded toward zero" reading of the claim is false. -/
theorem average_toward_zero_cex :
    find_match ⟨[⟨"a", -1, 0⟩, ⟨"b", -2, 0⟩], 10, 0⟩ 1 0
      = .ok (some ⟨[⟨"b", -2, 0⟩], [⟨"a", -1, 0⟩], -2⟩, []) ∧
      Int.tdiv (-3) 2 = -1 ∧ ((-2 : Int) = -1 → False) := by
  decide

/-- C3 amended: the average rating of every successful match is the floor
division (rounding toward negative infinity) of the sum of the matched
candidates' ratings by their count `2*team_size`, for arbitrary integer
ratings including negative sums. -/
theorem average_mmr_floor_div (mm : Matchmaker) (ts : Nat) (now : Int)
    (hts : 1 ≤ ts) (m : MatchResult) (q' : List Player)
    (hm : find_match mm (ts : Int) now = .ok (some m, q')) :
    m.average_mmr
        = Int.fdiv (sumMmr (m.team1 ++ m.team2)) (((m.team1 ++ m.team2).length : Nat) : Int) ∧
      (m.team1 ++ m.team2).length = 2 * ts := by
  obtain ⟨i, hbound, hmeq, hq'⟩ := find_match_some_char mm ts now hts m q' hm
  have hslen : (sortByMmr mm.queue).length = mm.queue.length := sortByMmr_length _
  have hclen : (window (sortByMmr mm.queue) ts i).length = 2 * ts :=
    window_length _ ts i (by omega)
  have hperm : (sliceStep2 (window (sortByMmr mm.queue) ts i)
      ++ sliceStep2 (window (sortByMmr mm.queue) ts i).tail).Perm
      (window (sortByMmr mm.queue) ts i) :=
    sliceStep2_append_tail_perm _
  subst hmeq
  constructor
  · simp only [buildMatch]
    rw [sumMmr_perm hperm, hperm.length_eq]
  · simp only [buildMatch]
    rw [hperm.length_eq, hclen]

/-- Witness for the amended C3 on a window with a negative rating sum. -/
theorem average_mmr_floor_div_witness :
    ((-2 : Int) = Int.fdiv (sumMmr ([⟨"b", -2, 0⟩] ++ [⟨"a", -1, 0⟩]))
        ((([⟨"b", -2, 0⟩] ++ [⟨"a", -1, 0⟩] : List Player).length : Nat) : Int)) ∧
      ([⟨"b", -2, 0⟩] ++ [⟨"a", -1, 0⟩] : List Player).length = 2 * 1 :=
  average_mmr_floor_div ⟨[⟨"a", -1, 0⟩, ⟨"b", -2, 0⟩], 10, 0⟩ 1 0 (by decide)
    ⟨[⟨"b", -2, 0⟩], [⟨"a", -1, 0⟩], -2⟩ [] (by decide)

/-- C4 counterexample: with `range_expansion = 0` (which is non-negative)
a window whose spread exceeds `base_range` is rejected at time 0 and
rejected again at the later time 1, refuting "a window rejected at time T
is never rejected at any T' > T". -/
theorem tolerance_rejected_persists_cex :
    acceptedB 0 0 0 [⟨"a", 0, 0⟩, ⟨"b", 10, 0⟩] = false ∧
      acceptedB 0 0 1 [⟨"a", 0, 0⟩, ⟨"b", 10, 0⟩] = false ∧
      (0 : Int) ≤ 0 ∧ (0 : Int) < 1 := by
  decide

/-- C4 amended: for a fixed window and non-negative `range_expansion`,
increasing `now` never decreases the allowed spread, so a window ACCEPTED
at time T is never rejected at any later time with identical contents. -/
theorem tolerance_monotone (base exp now nowL : Int) (w : List Player)
    (hexp : 0 ≤ exp) (hnow : now ≤ nowL) :
    (base + (now - minQt w) * exp ≤ base + (nowL - minQt w) * exp) ∧
      (acceptedB base exp now w = true → acceptedB base exp nowL w = true) := by
  have hmono : (now - minQt w) * exp ≤ (nowL - minQt w) * exp :=
    mul_le_mul_of_nonneg_right (by linarith) hexp
  constructor
  · linarith
  · intro h
    simp only [acceptedB, decide_eq_true_eq] at h ⊢
    linarith

/-- Witness for the amended C4 at a concrete window and times. -/
theorem tolerance_monotone_witness :
    ((0 : Int) + (0 - minQt [⟨"a", 0, 0⟩, ⟨"b", 3, 0⟩]) * 1
        ≤ 0 + (5 - minQt [⟨"a", 0, 0⟩, ⟨"b", 3, 0⟩]) * 1) ∧
      (acceptedB 0 1 0 [⟨"a", 0, 0⟩, ⟨"b", 3, 0⟩] = true →
        acceptedB 0 1 5 [⟨"a", 0, 0⟩, ⟨"b", 3, 0⟩] = true) :=
  tolerance_monotone 0 1 0 5 [⟨"a", 0, 0⟩, ⟨"b", 3, 0⟩] (by decide) (by decide)

/-- C6 counterexample: `add_to_queue` performs no duplicate-identity check;
re-enqueueing an already-queued identity succeeds and grows the queue,
instead of failing with `DuplicateIdentity` and leaving it unchanged. -/
theorem duplicate_add_succeeds_cex :
    (add_to_queue (add_to_queue ⟨[], 100, 10⟩ ⟨"a", 5, 0⟩ 0) ⟨"a", 5, 0⟩ 1).queue
        = [⟨"a", 5, 0⟩, ⟨"a", 5, 1⟩] ∧
      ((add_to_queue (add_to_queue ⟨[], 100, 10⟩ ⟨"a", 5, 0⟩ 0) ⟨"a", 5, 0⟩ 1).queue
        = (add_to_queue ⟨[], 100, 10⟩ ⟨"a", 5, 0⟩ 0).queue → False) := by
  decide

/-- C6 amended: adding a player whose identity is already queued does not
fail: the player is appended (with its enqueue time set to the current
time) exactly as for a fresh identity, and the queue grows by one. -/
theorem duplicate_add_appends (mm : Matchmaker) (p : Player) (now : Int)
    (_hdup : p.id ∈ mm.queue.map Player.id) :
    (add_to_queue mm p now).queue = mm.queue ++ [{ p with queue_time := now }] := rfl

/-- Witness for the amended C6: re-adding the identity "a". -/
theorem duplicate_add_appends_witness :
    (add_to_queue ⟨[⟨"a", 5, 0⟩], 100, 10⟩ ⟨"a", 7, 0⟩ 3).queue
      = [⟨"a", 5, 0⟩] ++ [⟨"a", 7, 3⟩] :=
  duplicate_add_appends ⟨[⟨"a", 5, 0⟩], 100, 10⟩ ⟨"a", 7, 0⟩ 3 (by decide)

/-- C10: in every successful match both teams are ascending in rating, the
k-th player of team1 rates no higher than the k-th player of team2 (team1
takes the even ranks of the sorted window, team2 the odd ranks), and hence
team2's total rating is at least team1's. -/
theorem team_rank_dominance (mm : Matchmaker) (ts : Nat) (now : Int)
    (hts : 1 ≤ ts) (m : MatchResult) (q' : List Player)
    (hm : find_match mm (ts : Int) now = .ok (some m, q')) :
    List.Sorted byMmr m.team1 ∧ List.Sorted byMmr m.team2 ∧
      (∀ k (h1 : k < m.team1.length) (h2 : k < m.team2.length),
        (m.team1.get ⟨k, h1⟩).mmr ≤ (m.team2.get ⟨k, h2⟩).mmr) ∧
      sumMmr m.team1 ≤ sumMmr m.team2 := by
  obtain ⟨i, hbound, hmeq, hq'⟩ := find_match_some_char mm ts now hts m q' hm
  have hslen : (sortByMmr mm.queue).length = mm.queue.length := sortByMmr_length _
  have hclen : (window (sortByMmr mm.queue) ts i).length = 2 * ts :=
    window_length _ ts i (by omega)
  have hcsorted : List.Sorted byMmr (window (sortByMmr mm.queue) ts i) :=
    window_sorted _ (sortByMmr_sorted mm.queue) ts i
  subst hmeq
  simp only [buildMatch]
  refine ⟨?_, ?_, ?_, ?_⟩
  · exact List.Pairwise.sublist (sliceStep2_sublist _) hcsorted
  · exact List.Pairwise.sublist
      ((sliceStep2_sublist _).trans (List.tail_sublist _)) hcsorted
  · intro k h1 h2
    have hk1 : (sliceStep2 (window (sortByMmr mm.queue) ts i))[k]?
        = (window (sortByMmr mm.queue) ts i)[2 * k]? := sliceStep2_getElem? _ k
    have hk2 : (sliceStep2 (window (sortByMmr mm.queue) ts i).tail)[k]?
        = (window (sortByMmr mm.queue) ts i)[2 * k + 1]? := by
      rw [sliceStep2_getElem? _ k, List.getElem?_tail]
    rw [List.getElem?_eq_getElem h1] at hk1
    rw [List.getElem?_eq_getElem h2] at hk2
    obtain ⟨hb1, he1⟩ := List.getElem?_eq_some.mp hk1.symm
    obtain ⟨hb2, he2⟩ := List.getElem?_eq_some.mp hk2.symm
    have hrel := List.pairwise_iff_getElem.mp hcsorted (2 * k) (2 * k + 1) hb1 hb2 (by omega)
    rw [he1, he2] at hrel
    simp only [List.get_eq_getElem]
    exact hrel
  · exact sliceStep2_sum_le _ hcsorted (by rw [hclen]; omega)

/-- Witness for C10 at a concrete two-player queue. -/
theorem team_rank_dominance_witness :
    List.Sorted byMmr ([⟨"a", 0, 0⟩] : List Player) ∧
      List.Sorted byMmr ([⟨"b", 5, 0⟩] : List Player) ∧
      (∀ k (h1 : k < ([⟨"a", 0, 0⟩] : List Player).length)
          (h2 : k < ([⟨"b", 5, 0⟩] : List Player).length),
        (([⟨"a", 0, 0⟩] : List Player).get ⟨k, h1⟩).mmr
          ≤ (([⟨"b", 5, 0⟩] : List Player).get ⟨k, h2⟩).mmr) ∧
      sumMmr [⟨"a", 0, 0⟩] ≤ sumMmr [⟨"b", 5, 0⟩] :=
  team_rank_dominance ⟨[⟨"a", 0, 0⟩, ⟨"b", 5, 0⟩], 10, 0⟩ 1 0 (by decide)
    ⟨[⟨"a", 0, 0⟩], [⟨"b", 5, 0⟩], 2⟩ [] (by decide)

/-- C9: on the queue with ratings 1000..1050 (step 10), all enqueued at
time 0, a search with team size 3 and `now = 0` forms the match
team1 = ranks 0,2,4, team2 = ranks 1,3,5, average 1025 when
`base_range = 50` (the full-queue window has spread 50 ≤ 50), and finds
no match, leaving the queue unchanged, when `base_range = 20`. -/
theorem scenario_six_players :
    find_match ⟨[⟨"p1", 1000, 0⟩, ⟨"p2", 1010, 0⟩, ⟨"p3", 1020, 0⟩,
                 ⟨"p4", 1030, 0⟩, ⟨"p5", 1040, 0⟩, ⟨"p6", 1050, 0⟩], 50, 0⟩ 3 0
      = .ok (some ⟨[⟨"p1", 1000, 0⟩, ⟨"p3", 1020, 0⟩, ⟨"p5", 1040, 0⟩],
                   [⟨"p2", 1010, 0⟩, ⟨"p4", 1030, 0⟩, ⟨"p6", 1050, 0⟩], 1025⟩, []) ∧
      find_match ⟨[⟨"p1", 1000, 0⟩, ⟨"p2", 1010, 0⟩, ⟨"p3", 1020, 0⟩,
                   ⟨"p4", 1030, 0⟩, ⟨"p5", 1040, 0⟩, ⟨"p6", 1050, 0⟩], 20, 0⟩ 3 0
        = .ok (none, [⟨"p1", 1000, 0⟩, ⟨"p2", 1010, 0⟩, ⟨"p3", 1020, 0⟩,
                      ⟨"p4", 1030, 0⟩, ⟨"p5", 1040, 0⟩, ⟨"p6", 1050, 0⟩]) := by
  decide
